import Mathlib

/-!
Shallow embedding of the consistent-hashing ring of tonglil/consistent-hash
(consistent.go), together with proofs about its operations.

The repository snapshot holds two revisions of consistent.go.  The later
revision is the authority for every symbol it defines (Add, Remove, Has, Get,
Next, NextN, PrevN, Range and the internal prev and next); GetFromHash exists
only in the earlier revision and is embedded from there, together with the
earlier revision's prev that it calls (named prevEarly here).

Go maps are modelled extensionally as Int → Option String; a map read
m.hashMap[x] that defaults to "" is (m.hashMap x).getD "".  Go's sort.Ints is
ascending sorting, embedded as List.insertionSort (· ≤ ·) (sorting is
extensionally unique over a linear order).  sort.Search / sort.SearchInts
return the least index satisfying the (monotone) predicate, or the length if
none does, embedded as List.findIdx.  An out-of-range slice index, which
panics in Go, is modelled by Option where the claims depend on it (NextN);
the internal prev/next index their slice unguarded, but every public caller
checks IsEmpty first, so the List.getD default there is unreachable.
-/

namespace ConsistentHash

/-- The ring state: the injectable hash function (Go type Hash, a function to
uint32, modelled as String → Nat reduced mod 2^32 at use), the sorted position
index (Go field keys) and the position-to-owner map (Go field hashMap). -/
structure Consistent where
  hash : String → Nat
  keys : List Int
  hashMap : Int → Option String

/-- Go: New(fn) — the empty ring.  Go's nil-default to crc32.ChecksumIEEE only
chooses which hash function is stored; the hash function itself is injectable
and out of scope, so New takes it abstractly. -/
def New (fn : String → Nat) : Consistent :=
  { hash := fn, keys := [], hashMap := fun _ => none }

/-- Go: IsEmpty — len(m.keys) == 0. -/
def Consistent.IsEmpty (m : Consistent) : Bool :=
  m.keys.length == 0

/-- Go: Hash — int(m.hash([]byte(key))); the uint32 return type of the stored
hash function is the reduction mod 2^32, and Go's int conversion of a uint32
value is the inclusion of that value into Int. -/
def Consistent.Hash (m : Consistent) (key : String) : Int :=
  ((m.hash key) % 2 ^ 32 : Nat)

/-- Go: Add — hash := m.Hash(key); if hash is absent from hashMap, append it
to keys and sort.Ints; in all cases set hashMap[hash] = key; return hash. -/
def Consistent.Add (m : Consistent) (key : String) : Int × Consistent :=
  let hash := m.Hash key
  let keys :=
    if (m.hashMap hash).isSome then m.keys
    else List.insertionSort (· ≤ ·) (m.keys ++ [hash])
  (hash, { m with keys := keys,
                  hashMap := fun p => if p = hash then some key else m.hashMap p })

/-- Go: Remove — i := sort.SearchInts(m.keys, hash); if i < len(keys) and
keys[i] == hash, splice index i out; delete hash from hashMap; sort.Ints
again. -/
def Consistent.Remove (m : Consistent) (key : String) : Consistent :=
  let hash := m.Hash key
  let i := m.keys.findIdx (fun x => hash ≤ x)
  let keys1 :=
    if i < m.keys.length ∧ m.keys.getD i 0 = hash
    then m.keys.take i ++ m.keys.drop (i + 1)
    else m.keys
  { m with keys := List.insertionSort (· ≤ ·) keys1,
           hashMap := fun p => if p = hash then none else m.hashMap p }

/-- Go: Has — the two-valued read of hashMap at m.Hash(key). -/
def Consistent.Has (m : Consistent) (key : String) : Bool :=
  (m.hashMap (m.Hash key)).isSome

/-- Go: next (later revision) — the least index i with keys[i] > hash,
wrapping to index 0 when there is none. -/
def Consistent.next (m : Consistent) (hash : Int) : Int :=
  let i := m.keys.findIdx (fun x => hash < x)
  m.keys.getD (if i = m.keys.length then 0 else i) 0

/-- Go: prev (later revision) — rev is keys sorted descending (sort.Reverse);
take the least index i with rev[i] <= hash, wrapping to index 0 (the largest
element) when there is none. -/
def Consistent.prev (m : Consistent) (hash : Int) : Int :=
  let rev := List.insertionSort (· ≥ ·) m.keys
  let i := rev.findIdx (fun x => x ≤ hash)
  rev.getD (if i = rev.length then 0 else i) 0

/-- Go: prev of the earlier revision — the same descending search, but the
wrap is i -= 1, landing on the last (smallest) element of rev. -/
def Consistent.prevEarly (m : Consistent) (hash : Int) : Int :=
  let rev := List.insertionSort (· ≥ ·) m.keys
  let i := rev.findIdx (fun x => x ≤ hash)
  rev.getD (if i = rev.length then i - 1 else i) 0

/-- Go: Next (later revision) — empty sentinel on the empty ring, else the
owner recorded at next(Hash(key)). -/
def Consistent.Next (m : Consistent) (key : String) : String :=
  if m.IsEmpty then ""
  else (m.hashMap (m.next (m.Hash key))).getD ""

/-- Go: Get (later revision) — a direct alias of Next. -/
def Consistent.Get (m : Consistent) (key : String) : String :=
  m.Next key

/-- Go: GetFromHash (earlier revision) — IsEmpty guard, then the owner at that
revision's prev(hash). -/
def Consistent.GetFromHash (m : Consistent) (hash : Int) : String :=
  if m.IsEmpty then "" else (m.hashMap (m.prevEarly hash)).getD ""

/-- One Go slice write locations[i] = v: the updated slice when i is in range,
none (an index-out-of-range panic) otherwise. -/
def sliceSet (l : List String) (i : Nat) (v : String) : Option (List String) :=
  if i < l.length then some (l.set i v) else none

/-- One iteration of the NextN loop body, on state (hash, locations):
hash = m.next(hash); locations[i] = m.hashMap[hash]. -/
def Consistent.nextNStep (m : Consistent) (st : Option (Int × List String)) (i : Nat) :
    Option (Int × List String) :=
  st.bind fun p =>
    let hash := m.next p.1
    (sliceSet p.2 i ((m.hashMap hash).getD "")).map fun loc => (hash, loc)

/-- Go: NextN (later revision) — nil on the empty ring; otherwise
locations := make([]string, count) (panics when count < 0), then the loop
for i := 0; i <= count; i++ runs nextNStep at i = 0, 1, ..., count.
none models a panic, some xs a normal return of xs. -/
def Consistent.NextN (m : Consistent) (key : String) (count : Int) : Option (List String) :=
  if m.IsEmpty then some []
  else if count < 0 then none
  else
    ((List.range (count.toNat + 1)).foldl m.nextNStep
      (some (m.Hash key, List.replicate count.toNat ""))).map Prod.snd

/-- One iteration of the PrevN loop body, on state (index, locations):
locations[i] = m.hashMap[index]; index = m.prev(index - 1). -/
def Consistent.prevNStep (m : Consistent) (st : Option (Int × List String)) (i : Nat) :
    Option (Int × List String) :=
  st.bind fun p =>
    (sliceSet p.2 i ((m.hashMap p.1).getD "")).map fun loc => (m.prev (p.1 - 1), loc)

/-- Go: PrevN (later revision) — nil on the empty ring; otherwise start at
index := m.prev(hash) and run prevNStep at i = 0, 1, ..., count-1. -/
def Consistent.PrevN (m : Consistent) (key : String) (count : Int) : Option (List String) :=
  if m.IsEmpty then some []
  else if count < 0 then none
  else
    ((List.range count.toNat).foldl m.prevNStep
      (some (m.prev (m.Hash key), List.replicate count.toNat ""))).map Prod.snd

/-- Go: Range (later revision) — (0, 0) on the empty ring, else
to := m.Hash(host); from := m.prev(to-1) + 1, returned as (from, to). -/
def Consistent.Range (m : Consistent) (host : String) : Int × Int :=
  if m.IsEmpty then (0, 0)
  else
    let t := m.Hash host
    (m.prev (t - 1) + 1, t)

/-- A mutating call on the ring. -/
inductive Op where
  | add (key : String)
  | remove (key : String)

/-- Apply one mutating call. -/
def applyOp (m : Consistent) : Op → Consistent
  | Op.add k => (m.Add k).2
  | Op.remove k => m.Remove k

/-- The ring reached from the empty ring by a sequence of mutating calls. -/
def run (fn : String → Nat) (ops : List Op) : Consistent :=
  ops.foldl applyOp (New fn)

/-- A toy hash function for concrete instances, in the style of the spec's
reproducible-test example h(x) = x mod 100: positions 10, 50, 90 for the
members "A", "B", "C", position 20 for "k20", and 5 for any other string. -/
def exHash : String → Nat := fun s =>
  if s = "A" then 10 else if s = "B" then 50 else if s = "C" then 90
  else if s = "k20" then 20 else 5

/-- A concrete two-member ring: positions 10 ↦ "A" and 50 ↦ "B". -/
def ex2 : Consistent := (((New exHash).Add "A").2.Add "B").2

/-- The reachable-state invariant: the sorted index is strictly ascending (so
duplicate-free) and carries exactly the key set of the owner map. -/
def Inv (m : Consistent) : Prop :=
  List.Sorted (· < ·) m.keys ∧ ∀ p : Int, p ∈ m.keys ↔ (m.hashMap p).isSome = true

/-! ## Helper lemmas about the binary searches -/

lemma getD_mem {l : List Int} {i : Nat} (hi : i < l.length) : l.getD i 0 ∈ l := by
  rw [List.getD_eq_getElem l 0 hi]
  exact List.getElem_mem hi

lemma sorted_le_getD {l : List Int} (hs : List.Sorted (· ≤ ·) l) {i j : Nat}
    (hij : i ≤ j) (hj : j < l.length) :
    l.getD i 0 ≤ l.getD j 0 := by
  have hi : i < l.length := lt_of_le_of_lt hij hj
  rw [List.getD_eq_getElem l 0 hi, List.getD_eq_getElem l 0 hj]
  rcases Nat.eq_or_lt_of_le hij with rfl | hlt
  · exact le_refl _
  · exact List.pairwise_iff_getElem.mp hs i j hi hj hlt

lemma sorted_ge_getD {l : List Int} (hs : List.Sorted (· ≥ ·) l) {i j : Nat}
    (hij : i ≤ j) (hj : j < l.length) :
    l.getD j 0 ≤ l.getD i 0 := by
  have hi : i < l.length := lt_of_le_of_lt hij hj
  rw [List.getD_eq_getElem l 0 hi, List.getD_eq_getElem l 0 hj]
  rcases Nat.eq_or_lt_of_le hij with rfl | hlt
  · exact le_refl _
  · exact List.pairwise_iff_getElem.mp hs i j hi hj hlt

/-- Characterization of the later revision's next: on a sorted, non-empty
index it returns the least occupied position strictly above the probe when
one exists, and the overall least occupied position otherwise. -/
lemma next_spec (m : Consistent) (h : Int) (hs : List.Sorted (· ≤ ·) m.keys)
    (hne : m.keys ≠ []) :
    m.next h ∈ m.keys ∧
    ((∃ x ∈ m.keys, h < x) → h < m.next h ∧ ∀ x ∈ m.keys, h < x → m.next h ≤ x) ∧
    ((∀ x ∈ m.keys, x ≤ h) → ∀ x ∈ m.keys, m.next h ≤ x) := by
  have hlen : 0 < m.keys.length := List.length_pos.mpr hne
  have hval : m.next h =
      m.keys.getD
        (if m.keys.findIdx (fun x => decide (h < x)) = m.keys.length then 0
         else m.keys.findIdx (fun x => decide (h < x))) 0 := rfl
  by_cases hex : ∃ x ∈ m.keys, h < x
  · have hilt : m.keys.findIdx (fun x => decide (h < x)) < m.keys.length := by
      apply List.findIdx_lt_length.mpr
      obtain ⟨x, hx, hhx⟩ := hex
      exact ⟨x, hx, decide_eq_true hhx⟩
    have hne2 : m.keys.findIdx (fun x => decide (h < x)) ≠ m.keys.length :=
      Nat.ne_of_lt hilt
    rw [hval, if_neg hne2]
    refine ⟨getD_mem hilt, fun _ => ⟨?_, ?_⟩, fun hall => ?_⟩
    · rw [List.getD_eq_getElem _ 0 hilt]
      exact of_decide_eq_true (@List.findIdx_getElem _ _ _ hilt)
    · intro x hx hhx
      obtain ⟨j, hj, hxj⟩ := List.mem_iff_getElem.mp hx
      subst hxj
      by_cases hji : j < m.keys.findIdx (fun x => decide (h < x))
      · have hfalse := List.not_of_lt_findIdx hji
        rw [decide_eq_false_iff_not] at hfalse
        exact absurd hhx hfalse
      · push_neg at hji
        have hle := sorted_le_getD hs hji hj
        rw [List.getD_eq_getElem _ 0 hj] at hle
        exact hle
    · obtain ⟨x, hx, hhx⟩ := hex
      exact absurd (hall x hx) (not_le.mpr hhx)
  · have hnlt : ¬ m.keys.findIdx (fun x => decide (h < x)) < m.keys.length := by
      intro hlt
      obtain ⟨x, hx, hpx⟩ := List.findIdx_lt_length.mp hlt
      exact hex ⟨x, hx, of_decide_eq_true hpx⟩
    have hieq : m.keys.findIdx (fun x => decide (h < x)) = m.keys.length :=
      Nat.le_antisymm (List.findIdx_le_length _) (Nat.le_of_not_lt hnlt)
    rw [hval, if_pos hieq]
    push_neg at hex
    refine ⟨getD_mem hlen, fun hex2 => ?_, fun _ x hx => ?_⟩
    · obtain ⟨x, hx, hhx⟩ := hex2
      exact absurd hhx (not_lt.mpr (hex x hx))
    · obtain ⟨j, hj, hxj⟩ := List.mem_iff_getElem.mp hx
      subst hxj
      have hle := sorted_le_getD hs (Nat.zero_le j) hj
      rw [List.getD_eq_getElem _ 0 hj] at hle
      exact hle

/-- The descending search shared by both revisions of prev, in the case where
some occupied position is at or below the probe: it finds the greatest such
position. -/
lemma descend_found (m : Consistent) (h : Int) (hex : ∃ x ∈ m.keys, x ≤ h) :
    (List.insertionSort (· ≥ ·) m.keys).findIdx (fun x => decide (x ≤ h)) <
      (List.insertionSort (· ≥ ·) m.keys).length ∧
    (List.insertionSort (· ≥ ·) m.keys).getD
      ((List.insertionSort (· ≥ ·) m.keys).findIdx (fun x => decide (x ≤ h))) 0 ∈ m.keys ∧
    (List.insertionSort (· ≥ ·) m.keys).getD
      ((List.insertionSort (· ≥ ·) m.keys).findIdx (fun x => decide (x ≤ h))) 0 ≤ h ∧
    ∀ x ∈ m.keys, x ≤ h →
      x ≤ (List.insertionSort (· ≥ ·) m.keys).getD
        ((List.insertionSort (· ≥ ·) m.keys).findIdx (fun x => decide (x ≤ h))) 0 := by
  have hp := List.perm_insertionSort (· ≥ ·) m.keys
  have hrs := List.sorted_insertionSort (· ≥ ·) m.keys
  have hilt : (List.insertionSort (· ≥ ·) m.keys).findIdx (fun x => decide (x ≤ h)) <
      (List.insertionSort (· ≥ ·) m.keys).length := by
    apply List.findIdx_lt_length.mpr
    obtain ⟨x, hx, hhx⟩ := hex
    exact ⟨x, hp.mem_iff.mpr hx, decide_eq_true hhx⟩
  refine ⟨hilt, hp.mem_iff.mp (getD_mem hilt), ?_, ?_⟩
  · rw [List.getD_eq_getElem _ 0 hilt]
    exact of_decide_eq_true (@List.findIdx_getElem _ _ _ hilt)
  · intro x hx hhx
    obtain ⟨j, hj, hxj⟩ := List.mem_iff_getElem.mp (hp.mem_iff.mpr hx)
    subst hxj
    by_cases hji : j < (List.insertionSort (· ≥ ·) m.keys).findIdx (fun x => decide (x ≤ h))
    · have hfalse := List.not_of_lt_findIdx hji
      rw [decide_eq_false_iff_not] at hfalse
      exact absurd hhx hfalse
    · push_neg at hji
      have hle := sorted_ge_getD hrs hji hj
      rw [List.getD_eq_getElem _ 0 hj] at hle
      exact hle

/-- The descending search in the case where every occupied position is
strictly above the probe: the search runs past the end. -/
lemma descend_notfound (m : Consistent) (h : Int) (hall : ∀ x ∈ m.keys, h < x) :
    (List.insertionSort (· ≥ ·) m.keys).findIdx (fun x => decide (x ≤ h)) =
      (List.insertionSort (· ≥ ·) m.keys).length := by
  have hp := List.perm_insertionSort (· ≥ ·) m.keys
  have hnlt : ¬ (List.insertionSort (· ≥ ·) m.keys).findIdx (fun x => decide (x ≤ h)) <
      (List.insertionSort (· ≥ ·) m.keys).length := by
    intro hlt
    obtain ⟨x, hx, hpx⟩ := List.findIdx_lt_length.mp hlt
    exact absurd (hall x (hp.mem_iff.mp hx)) (not_lt.mpr (of_decide_eq_true hpx))
  exact Nat.le_antisymm (List.findIdx_le_length _) (Nat.le_of_not_lt hnlt)

/-- Characterization of the later revision's prev: on a non-empty index it
returns the greatest occupied position at or below the probe when one exists,
and the overall greatest occupied position otherwise (the i = 0 wrap lands on
the head of the descending sequence). -/
lemma prev_spec (m : Consistent) (h : Int) (hne : m.keys ≠ []) :
    m.prev h ∈ m.keys ∧
    ((∃ x ∈ m.keys, x ≤ h) → m.prev h ≤ h ∧ ∀ x ∈ m.keys, x ≤ h → x ≤ m.prev h) ∧
    ((∀ x ∈ m.keys, h < x) → ∀ x ∈ m.keys, x ≤ m.prev h) := by
  have hp := List.perm_insertionSort (· ≥ ·) m.keys
  have hrs := List.sorted_insertionSort (· ≥ ·) m.keys
  have hlen : 0 < (List.insertionSort (· ≥ ·) m.keys).length := by
    rw [hp.length_eq]
    exact List.length_pos.mpr hne
  have hval : m.prev h =
      (List.insertionSort (· ≥ ·) m.keys).getD
        (if (List.insertionSort (· ≥ ·) m.keys).findIdx (fun x => decide (x ≤ h)) =
            (List.insertionSort (· ≥ ·) m.keys).length then 0
         else (List.insertionSort (· ≥ ·) m.keys).findIdx (fun x => decide (x ≤ h))) 0 := rfl
  by_cases hex : ∃ x ∈ m.keys, x ≤ h
  · obtain ⟨hilt, hmem, hleh, hmax⟩ := descend_found m h hex
    rw [hval, if_neg (Nat.ne_of_lt hilt)]
    refine ⟨hmem, fun _ => ⟨hleh, hmax⟩, fun hall => ?_⟩
    obtain ⟨x, hx, hhx⟩ := hex
    exact absurd (hall x hx) (not_lt.mpr hhx)
  · push_neg at hex
    have hieq := descend_notfound m h hex
    rw [hval, if_pos hieq]
    refine ⟨hp.mem_iff.mp (getD_mem hlen), fun hex2 => ?_, fun _ x hx => ?_⟩
    · obtain ⟨x, hx, hhx⟩ := hex2
      exact absurd hhx (not_le.mpr (hex x hx))
    · obtain ⟨j, hj, hxj⟩ := List.mem_iff_getElem.mp (hp.mem_iff.mpr hx)
      subst hxj
      have hle := sorted_ge_getD hrs (Nat.zero_le j) hj
      rw [List.getD_eq_getElem _ 0 hj] at hle
      exact hle

/-- Characterization of the earlier revision's prev, used by GetFromHash: the
same greatest-at-or-below search, but the i -= 1 wrap lands on the overall
least occupied position. -/
lemma prevEarly_spec (m : Consistent) (h : Int) (hne : m.keys ≠ []) :
    m.prevEarly h ∈ m.keys ∧
    ((∃ x ∈ m.keys, x ≤ h) → m.prevEarly h ≤ h ∧ ∀ x ∈ m.keys, x ≤ h → x ≤ m.prevEarly h) ∧
    ((∀ x ∈ m.keys, h < x) → ∀ x ∈ m.keys, m.prevEarly h ≤ x) := by
  have hp := List.perm_insertionSort (· ≥ ·) m.keys
  have hrs := List.sorted_insertionSort (· ≥ ·) m.keys
  have hlen : 0 < (List.insertionSort (· ≥ ·) m.keys).length := by
    rw [hp.length_eq]
    exact List.length_pos.mpr hne
  have hval : m.prevEarly h =
      (List.insertionSort (· ≥ ·) m.keys).getD
        (if (List.insertionSort (· ≥ ·) m.keys).findIdx (fun x => decide (x ≤ h)) =
            (List.insertionSort (· ≥ ·) m.keys).length then
           (List.insertionSort (· ≥ ·) m.keys).findIdx (fun x => decide (x ≤ h)) - 1
         else (List.insertionSort (· ≥ ·) m.keys).findIdx (fun x => decide (x ≤ h))) 0 := rfl
  by_cases hex : ∃ x ∈ m.keys, x ≤ h
  · obtain ⟨hilt, hmem, hleh, hmax⟩ := descend_found m h hex
    rw [hval, if_neg (Nat.ne_of_lt hilt)]
    refine ⟨hmem, fun _ => ⟨hleh, hmax⟩, fun hall => ?_⟩
    obtain ⟨x, hx, hhx⟩ := hex
    exact absurd (hall x hx) (not_lt.mpr hhx)
  · push_neg at hex
    have hieq := descend_notfound m h hex
    rw [hval, if_pos hieq, hieq]
    have hlast : (List.insertionSort (· ≥ ·) m.keys).length - 1 <
        (List.insertionSort (· ≥ ·) m.keys).length := by omega
    refine ⟨hp.mem_iff.mp (getD_mem hlast), fun hex2 => ?_, fun _ x hx => ?_⟩
    · obtain ⟨x, hx, hhx⟩ := hex2
      exact absurd hhx (not_le.mpr (hex x hx))
    · obtain ⟨j, hj, hxj⟩ := List.mem_iff_getElem.mp (hp.mem_iff.mpr hx)
      subst hxj
      have hle := sorted_ge_getD hrs (show j ≤ (List.insertionSort (· ≥ ·) m.keys).length - 1 by omega) hlast
      rw [List.getD_eq_getElem _ 0 hj] at hle
      exact hle

/-! ## Helper lemmas about the mutations -/

lemma splice_sublist (l : List Int) (i : Nat) :
    (l.take i ++ l.drop (i + 1)).Sublist l := by
  have h1 : (l.drop (i + 1)).Sublist (l.drop i) := by
    have hd : l.drop (i + 1) = List.drop 1 (l.drop i) := by
      rw [List.drop_drop, Nat.add_comm]
    rw [hd]
    exact List.drop_sublist 1 (l.drop i)
  have h2 := (List.Sublist.refl (l.take i)).append h1
  rw [List.take_append_drop] at h2
  exact h2

lemma mem_splice_of_ne {l : List Int} {i : Nat} {p : Int} (hil : i < l.length)
    (hp : p ∈ l) (hne : p ≠ l.getD i 0) :
    p ∈ l.take i ++ l.drop (i + 1) := by
  obtain ⟨j, hj, hpj⟩ := List.mem_iff_getElem.mp hp
  have hji : j ≠ i := by
    intro hji
    subst hji
    rw [List.getD_eq_getElem _ 0 hj] at hne
    exact hne hpj.symm
  rcases Nat.lt_or_ge j i with hlt | hge
  · apply List.mem_append.mpr
    left
    apply List.mem_iff_getElem.mpr
    have hjt : j < (l.take i).length := by
      rw [List.length_take]
      omega
    refine ⟨j, hjt, ?_⟩
    rw [List.getElem_take]
    exact hpj
  · apply List.mem_append.mpr
    right
    apply List.mem_iff_getElem.mpr
    have hjd : j - (i + 1) < (l.drop (i + 1)).length := by
      rw [List.length_drop]
      omega
    refine ⟨j - (i + 1), hjd, ?_⟩
    rw [List.getElem_drop]
    have hidx : i + 1 + (j - (i + 1)) = j := by omega
    simp only [hidx]
    exact hpj

lemma getD_not_mem_splice {l : List Int} {i : Nat} (hnd : l.Nodup) (hil : i < l.length) :
    l.getD i 0 ∉ l.take i ++ l.drop (i + 1) := by
  intro hmem
  rcases List.mem_append.mp hmem with hin | hin
  · obtain ⟨j, hjt, hpj⟩ := List.mem_iff_getElem.mp hin
    have hji : j < i := by
      have hjt2 := hjt
      rw [List.length_take] at hjt2
      omega
    have hjl : j < l.length := by omega
    rw [List.getElem_take, List.getD_eq_getElem _ 0 hil] at hpj
    exact (List.pairwise_iff_getElem.mp hnd j i hjl hil hji) hpj
  · obtain ⟨j, hjd, hpj⟩ := List.mem_iff_getElem.mp hin
    have hjl : i + 1 + j < l.length := by
      have hjd2 := hjd
      rw [List.length_drop] at hjd2
      omega
    rw [List.getElem_drop, List.getD_eq_getElem _ 0 hil] at hpj
    have hlt : i < i + 1 + j := by omega
    exact (List.pairwise_iff_getElem.mp hnd i (i + 1 + j) hil hjl hlt) hpj.symm

/-- sort.SearchInts on a sorted index containing the probe lands exactly on
the probe. -/
lemma findIdx_of_mem_sorted {l : List Int} {h : Int} (hs : List.Sorted (· ≤ ·) l)
    (hm : h ∈ l) :
    l.findIdx (fun x => decide (h ≤ x)) < l.length ∧
    l.getD (l.findIdx (fun x => decide (h ≤ x))) 0 = h := by
  have hilt : l.findIdx (fun x => decide (h ≤ x)) < l.length :=
    List.findIdx_lt_length.mpr ⟨h, hm, decide_eq_true (le_refl h)⟩
  refine ⟨hilt, ?_⟩
  obtain ⟨j, hj, hpj⟩ := List.mem_iff_getElem.mp hm
  have hji : ¬ j < l.findIdx (fun x => decide (h ≤ x)) := by
    intro hji
    have hfalse := List.not_of_lt_findIdx hji
    rw [decide_eq_false_iff_not] at hfalse
    exact hfalse (le_of_eq hpj.symm)
  push_neg at hji
  have h1 := sorted_le_getD hs hji hj
  have h2 : h ≤ l.getD (l.findIdx (fun x => decide (h ≤ x))) 0 := by
    rw [List.getD_eq_getElem _ 0 hilt]
    exact of_decide_eq_true (@List.findIdx_getElem _ _ _ hilt)
  rw [List.getD_eq_getElem _ 0 hj, hpj] at h1
  exact le_antisymm h1 h2

lemma sorted_lt_of_sorted_le {l : List Int} (hle : List.Sorted (· ≤ ·) l)
    (hnd : l.Nodup) : List.Sorted (· < ·) l :=
  (List.Pairwise.and hle hnd).imp fun hab => lt_of_le_of_ne hab.1 hab.2

lemma mem_insertionSort_le (l : List Int) (p : Int) :
    p ∈ List.insertionSort (· ≤ ·) l ↔ p ∈ l :=
  (List.perm_insertionSort _ l).mem_iff

/-! ## Projection lemmas for Add and Remove -/

lemma Add_fst (m : Consistent) (k : String) : (m.Add k).1 = m.Hash k := rfl

lemma Add_snd_hash (m : Consistent) (k : String) : (m.Add k).2.hash = m.hash := rfl

lemma Add_snd_hashMap (m : Consistent) (k : String) :
    (m.Add k).2.hashMap = fun p => if p = m.Hash k then some k else m.hashMap p := rfl

lemma Add_snd_keys_present (m : Consistent) (k : String)
    (hc : (m.hashMap (m.Hash k)).isSome = true) : (m.Add k).2.keys = m.keys := by
  simp [Consistent.Add, hc]

lemma Add_snd_keys_absent (m : Consistent) (k : String)
    (hc : ¬ (m.hashMap (m.Hash k)).isSome = true) :
    (m.Add k).2.keys = List.insertionSort (· ≤ ·) (m.keys ++ [m.Hash k]) := by
  simp [Consistent.Add, hc]

lemma Remove_hash (m : Consistent) (k : String) : (m.Remove k).hash = m.hash := rfl

lemma Remove_hashMap (m : Consistent) (k : String) :
    (m.Remove k).hashMap = fun p => if p = m.Hash k then none else m.hashMap p := rfl

lemma Remove_keys_found (m : Consistent) (k : String)
    (hc : m.keys.findIdx (fun x => decide (m.Hash k ≤ x)) < m.keys.length ∧
      m.keys.getD (m.keys.findIdx (fun x => decide (m.Hash k ≤ x))) 0 = m.Hash k) :
    (m.Remove k).keys = List.insertionSort (· ≤ ·)
      (m.keys.take (m.keys.findIdx (fun x => decide (m.Hash k ≤ x))) ++
       m.keys.drop (m.keys.findIdx (fun x => decide (m.Hash k ≤ x)) + 1)) := by
  simp only [Consistent.Remove, if_pos hc]

lemma Remove_keys_notfound (m : Consistent) (k : String)
    (hc : ¬ (m.keys.findIdx (fun x => decide (m.Hash k ≤ x)) < m.keys.length ∧
      m.keys.getD (m.keys.findIdx (fun x => decide (m.Hash k ≤ x))) 0 = m.Hash k)) :
    (m.Remove k).keys = List.insertionSort (· ≤ ·) m.keys := by
  simp only [Consistent.Remove, if_neg hc]

lemma Add_snd_hashMap_at (m : Consistent) (k : String) (p : Int) :
    (m.Add k).2.hashMap p = if p = m.Hash k then some k else m.hashMap p := rfl

lemma Remove_hashMap_at (m : Consistent) (k : String) (p : Int) :
    (m.Remove k).hashMap p = if p = m.Hash k then none else m.hashMap p := rfl

/-! ## The reachable-state invariant -/

lemma inv_new (fn : String → Nat) : Inv (New fn) := by
  refine ⟨by simp [New], fun p => ?_⟩
  simp [New]

lemma inv_add (m : Consistent) (k : String) (hi : Inv m) : Inv (m.Add k).2 := by
  obtain ⟨hs, hmem⟩ := hi
  by_cases hc : (m.hashMap (m.Hash k)).isSome = true
  · refine ⟨?_, fun p => ?_⟩
    · rw [Add_snd_keys_present m k hc]
      exact hs
    · rw [Add_snd_keys_present m k hc, Add_snd_hashMap_at m k p]
      by_cases hp : p = m.Hash k
      · subst hp
        simp only [if_pos rfl]
        exact iff_of_true ((hmem _).mpr hc) rfl
      · simp only [if_neg hp]
        exact hmem p
  · have hnotmem : m.Hash k ∉ m.keys := fun hmm => hc ((hmem _).mp hmm)
    have hnd : (m.keys ++ [m.Hash k]).Nodup := by
      rw [List.nodup_append]
      refine ⟨hs.nodup, List.nodup_singleton _, ?_⟩
      intro a ha hb
      rw [List.mem_singleton] at hb
      subst hb
      exact hnotmem ha
    have hperm := List.perm_insertionSort (· ≤ ·) (m.keys ++ [m.Hash k])
    refine ⟨?_, fun p => ?_⟩
    · rw [Add_snd_keys_absent m k hc]
      exact sorted_lt_of_sorted_le (List.sorted_insertionSort _ _) (hperm.symm.nodup hnd)
    · rw [Add_snd_keys_absent m k hc, Add_snd_hashMap_at m k p,
        mem_insertionSort_le, List.mem_append, List.mem_singleton]
      by_cases hp : p = m.Hash k
      · subst hp
        simp
      · simp only [if_neg hp]
        constructor
        · intro hor
          rcases hor with hin | heq
          · exact (hmem p).mp hin
          · exact absurd heq hp
        · intro hps
          exact Or.inl ((hmem p).mpr hps)

lemma inv_remove (m : Consistent) (k : String) (hi : Inv m) : Inv (m.Remove k) := by
  obtain ⟨hs, hmem⟩ := hi
  have hsle : List.Sorted (· ≤ ·) m.keys := hs.imp fun hab => le_of_lt hab
  by_cases hc : m.keys.findIdx (fun x => decide (m.Hash k ≤ x)) < m.keys.length ∧
      m.keys.getD (m.keys.findIdx (fun x => decide (m.Hash k ≤ x))) 0 = m.Hash k
  · have hkeys := Remove_keys_found m k hc
    obtain ⟨hil, hval⟩ := hc
    have hsub := splice_sublist m.keys (m.keys.findIdx (fun x => decide (m.Hash k ≤ x)))
    have hsorted1 : List.Sorted (· < ·)
        (m.keys.take (m.keys.findIdx (fun x => decide (m.Hash k ≤ x))) ++
         m.keys.drop (m.keys.findIdx (fun x => decide (m.Hash k ≤ x)) + 1)) :=
      List.Pairwise.sublist hsub hs
    have hperm := List.perm_insertionSort (· ≤ ·)
        (m.keys.take (m.keys.findIdx (fun x => decide (m.Hash k ≤ x))) ++
         m.keys.drop (m.keys.findIdx (fun x => decide (m.Hash k ≤ x)) + 1))
    refine ⟨?_, fun p => ?_⟩
    · rw [hkeys]
      exact sorted_lt_of_sorted_le (List.sorted_insertionSort _ _)
        (hperm.symm.nodup hsorted1.nodup)
    · rw [hkeys, Remove_hashMap_at m k p, mem_insertionSort_le]
      by_cases hp : p = m.Hash k
      · subst hp
        simp only [if_pos rfl]
        refine iff_of_false ?_ (by simp)
        have hnot := getD_not_mem_splice hs.nodup hil
        rw [hval] at hnot
        exact hnot
      · simp only [if_neg hp]
        constructor
        · intro hin
          exact (hmem p).mp (hsub.subset hin)
        · intro hps
          refine mem_splice_of_ne hil ((hmem p).mpr hps) ?_
          rw [hval]
          exact hp
  · have hkeys := Remove_keys_notfound m k hc
    have hnotmem : m.Hash k ∉ m.keys := by
      intro hmm
      exact hc (findIdx_of_mem_sorted hsle hmm)
    refine ⟨?_, fun p => ?_⟩
    · rw [hkeys]
      have hperm := List.perm_insertionSort (· ≤ ·) m.keys
      exact sorted_lt_of_sorted_le (List.sorted_insertionSort _ _) (hperm.symm.nodup hs.nodup)
    · rw [hkeys, Remove_hashMap_at m k p, mem_insertionSort_le]
      by_cases hp : p = m.Hash k
      · subst hp
        simp only [if_pos rfl]
        exact iff_of_false hnotmem (by simp)
      · simp only [if_neg hp]
        exact hmem p

lemma inv_foldl (ops : List Op) (m : Consistent) (hi : Inv m) :
    Inv (ops.foldl applyOp m) := by
  induction ops generalizing m with
  | nil => exact hi
  | cons op rest ih =>
    rw [List.foldl_cons]
    cases op with
    | add k => exact ih _ (inv_add m k hi)
    | remove k => exact ih _ (inv_remove m k hi)

/-! ## Helper lemmas for the NextN loop -/

lemma nextNStep_none (m : Consistent) (i : Nat) : m.nextNStep none i = none := rfl

lemma nextNStep_some (m : Consistent) (p : Int × List String) (i : Nat) :
    m.nextNStep (some p) i =
      (sliceSet p.2 i ((m.hashMap (m.next p.1)).getD "")).map
        fun loc => (m.next p.1, loc) := rfl

lemma foldl_nextNStep_none (m : Consistent) (l : List Nat) :
    l.foldl m.nextNStep none = none := by
  induction l with
  | nil => rfl
  | cons a t ih =>
    rw [List.foldl_cons, nextNStep_none]
    exact ih

lemma nextNStep_length (m : Consistent) {p q : Int × List String} {i : Nat}
    (h : m.nextNStep (some p) i = some q) : q.2.length = p.2.length := by
  rw [nextNStep_some] at h
  unfold sliceSet at h
  by_cases hi : i < p.2.length
  · rw [if_pos hi] at h
    simp only [Option.map_some'] at h
    cases h
    exact List.length_set p.2 i _
  · rw [if_neg hi] at h
    cases h

lemma foldl_nextNStep_length (m : Consistent) (l : List Nat) (p : Int × List String)
    {q : Int × List String}
    (h : l.foldl m.nextNStep (some p) = some q) : q.2.length = p.2.length := by
  induction l generalizing p with
  | nil =>
    cases h
    rfl
  | cons a t ih =>
    rw [List.foldl_cons] at h
    cases hstep : m.nextNStep (some p) a with
    | none =>
      rw [hstep, foldl_nextNStep_none] at h
      cases h
    | some r =>
      rw [hstep] at h
      rw [ih r h]
      exact nextNStep_length m hstep

lemma isEmpty_false_of_ne {m : Consistent} (hne : m.keys ≠ []) : m.IsEmpty = false := by
  unfold Consistent.IsEmpty
  rw [beq_eq_false_iff_ne]
  intro hlen
  exact hne (List.length_eq_zero.mp hlen)

lemma Next_eq_of_nonempty {m : Consistent} (hie : m.IsEmpty = false) (key : String) :
    m.Next key = (m.hashMap (m.next (m.Hash key))).getD "" := by
  unfold Consistent.Next
  rw [hie]
  rfl

lemma hash_mem_add_keys (m : Consistent) (k : String)
    (hmem : ∀ p : Int, p ∈ m.keys ↔ (m.hashMap p).isSome = true) :
    m.Hash k ∈ (m.Add k).2.keys := by
  by_cases hc : (m.hashMap (m.Hash k)).isSome = true
  · rw [Add_snd_keys_present m k hc]
    exact (hmem _).mpr hc
  · rw [Add_snd_keys_absent m k hc, mem_insertionSort_le, List.mem_append, List.mem_singleton]
    exact Or.inr rfl

example : ex2.keys = [10, 50] := by decide
example : ex2.hashMap 10 = some "A" := by decide
example : ex2.hashMap 50 = some "B" := by decide
example : ex2.Get "k20" = "B" := by decide
example : ex2.GetFromHash 20 = "A" := by decide
example : ex2.prev 5 = 50 := by decide
example : ex2.Range "A" = (51, 10) := by decide
example : ex2.NextN "k20" 1 = none := by decide
example : ex2.PrevN "k20" 2 = some ["A", "B"] := by decide

/-! ## Claim theorems -/

/-- Claim C1.  The claim states that on every non-empty ring and count >= 1,
NextN completes normally and returns exactly count owners.  The code does
not: its loop runs count+1 iterations (i <= count) over a buffer of length
count, so the final iteration indexes one past the end and panics.  This
theorem proves the panic (modelled as none) on every non-empty ring, for
every key and every count. -/
theorem nextN_panics (m : Consistent) (key : String) (count : Int)
    (hne : m.IsEmpty = false) : m.NextN key count = none := by
  unfold Consistent.NextN
  rw [hne]
  simp only [Bool.false_eq_true, if_false]
  by_cases hcnt : count < 0
  · rw [if_pos hcnt]
  · rw [if_neg hcnt]
    rw [List.range_succ, List.foldl_append, List.foldl_cons, List.foldl_nil]
    cases hinner : (List.range count.toNat).foldl m.nextNStep
        (some (m.Hash key, List.replicate count.toNat "")) with
    | none =>
      rw [nextNStep_none]
      rfl
    | some r =>
      have hlen : r.2.length = count.toNat := by
        have hfold := foldl_nextNStep_length m _ _ hinner
        rwa [List.length_replicate] at hfold
      rw [nextNStep_some]
      have hnlt : ¬ count.toNat < r.2.length := by
        rw [hlen]
        exact lt_irrefl _
      have hss : sliceSet r.2 count.toNat ((m.hashMap (m.next r.1)).getD "") = none := by
        unfold sliceSet
        rw [if_neg hnlt]
      rw [hss]
      rfl

/-- Witness for C1: the concrete two-member ring panics on NextN with
count 1 (the claimed result would have been a one-owner list). -/
theorem nextN_panics_witness : ex2.IsEmpty = false ∧ ex2.NextN "k20" 1 = none :=
  ⟨by decide, nextN_panics ex2 "k20" 1 (by decide)⟩

/-- Counterexample for C2.  On the ring with occupied positions 10 and 50 and
probe 5, no occupied position is at or below 5, and prev wraps to 50 — the
largest occupied position — not to the smallest (10) as the claim states. -/
theorem prev_wrap_counterexample :
    ex2.keys = [10, 50] ∧ (∀ x ∈ ex2.keys, ¬ x ≤ (5 : Int)) ∧
    ex2.prev 5 = 50 ∧ ex2.prev 5 ≠ 10 := by decide

/-- Claim C2, amended: on a non-empty ring, prev(h) returns the largest
occupied position at most h, and when no occupied position is at or below h
it wraps to the largest occupied position overall (not the smallest). -/
theorem prev_spec_amended (m : Consistent) (h : Int) (hne : m.keys ≠ []) :
    m.prev h ∈ m.keys ∧
    ((∃ x ∈ m.keys, x ≤ h) → m.prev h ≤ h ∧ ∀ x ∈ m.keys, x ≤ h → x ≤ m.prev h) ∧
    ((∀ x ∈ m.keys, h < x) → ∀ x ∈ m.keys, x ≤ m.prev h) :=
  prev_spec m h hne

/-- Witness for the amended C2, on the concrete two-member ring at probe 20. -/
theorem prev_spec_amended_witness :
    ex2.prev 20 ∈ ex2.keys ∧
    ((∃ x ∈ ex2.keys, x ≤ 20) → ex2.prev 20 ≤ 20 ∧ ∀ x ∈ ex2.keys, x ≤ 20 → x ≤ ex2.prev 20) ∧
    ((∀ x ∈ ex2.keys, 20 < x) → ∀ x ∈ ex2.keys, x ≤ ex2.prev 20) :=
  prev_spec_amended ex2 20 (by decide)

/-- Counterexample for C3.  On the ring with 10 ↦ "A" and 50 ↦ "B" and the
precomputed position 20 (the hash of "k20"), GetFromHash returns "A", the
owner of prev(20) = 10, while Get on a key hashing to 20 returns "B", the
owner of next(20) = 50 — so GetFromHash does not return the owner of
next(h) as the claim states. -/
theorem getFromHash_counterexample :
    ex2.Hash "k20" = 20 ∧ ex2.GetFromHash 20 = "A" ∧ ex2.Get "k20" = "B" ∧
    ex2.next 20 = 50 ∧ ex2.hashMap 50 = some "B" ∧ ("A" : String) ≠ "B" := by decide

/-- Claim C3, amended: GetFromHash(h) returns the owner recorded at the
earlier revision's prev(h) — the largest occupied position at most h,
wrapping to the smallest occupied position when all positions exceed h —
i.e. the predecessor convention of the revision it lives in, not the
successor convention of Get/Next. -/
theorem getFromHash_spec_amended (m : Consistent) (h : Int) (hne : m.keys ≠ []) :
    m.GetFromHash h = (m.hashMap (m.prevEarly h)).getD "" ∧
    m.prevEarly h ∈ m.keys ∧
    ((∃ x ∈ m.keys, x ≤ h) → m.prevEarly h ≤ h ∧ ∀ x ∈ m.keys, x ≤ h → x ≤ m.prevEarly h) ∧
    ((∀ x ∈ m.keys, h < x) → ∀ x ∈ m.keys, m.prevEarly h ≤ x) := by
  obtain ⟨h1, h2, h3⟩ := prevEarly_spec m h hne
  refine ⟨?_, h1, h2, h3⟩
  unfold Consistent.GetFromHash
  rw [isEmpty_false_of_ne hne]
  rfl

/-- Witness for the amended C3, on the concrete two-member ring at
position 20. -/
theorem getFromHash_spec_amended_witness :
    ex2.GetFromHash 20 = (ex2.hashMap (ex2.prevEarly 20)).getD "" ∧
    ex2.prevEarly 20 ∈ ex2.keys ∧
    ((∃ x ∈ ex2.keys, x ≤ 20) →
      ex2.prevEarly 20 ≤ 20 ∧ ∀ x ∈ ex2.keys, x ≤ 20 → x ≤ ex2.prevEarly 20) ∧
    ((∀ x ∈ ex2.keys, 20 < x) → ∀ x ∈ ex2.keys, ex2.prevEarly 20 ≤ x) :=
  getFromHash_spec_amended ex2 20 (by decide)

/-- Claim C4: Get is a direct alias of Next, and on a non-empty (sorted) ring
Next returns the owner recorded at next(Hash(key)), where next(Hash(key)) is
the least occupied position strictly greater than Hash(key) when one exists
(so a key whose hash sits exactly on an occupied position goes to that
position's successor), and the least occupied position overall otherwise. -/
theorem get_eq_next_successor :
    (∀ (m : Consistent) (key : String), m.Get key = m.Next key) ∧
    (∀ (m : Consistent) (key : String), List.Sorted (· ≤ ·) m.keys → m.keys ≠ [] →
      m.Next key = (m.hashMap (m.next (m.Hash key))).getD "" ∧
      m.next (m.Hash key) ∈ m.keys ∧
      ((∃ x ∈ m.keys, m.Hash key < x) →
        m.Hash key < m.next (m.Hash key) ∧
        ∀ x ∈ m.keys, m.Hash key < x → m.next (m.Hash key) ≤ x) ∧
      ((∀ x ∈ m.keys, x ≤ m.Hash key) → ∀ x ∈ m.keys, m.next (m.Hash key) ≤ x)) := by
  constructor
  · intro m key
    rfl
  · intro m key hs hne
    obtain ⟨h1, h2, h3⟩ := next_spec m (m.Hash key) hs hne
    exact ⟨Next_eq_of_nonempty (isEmpty_false_of_ne hne) key, h1, h2, h3⟩

/-- Witness for C4 on the concrete two-member ring. -/
theorem get_eq_next_successor_witness :
    ex2.Get "k20" = ex2.Next "k20" ∧
    ex2.Next "k20" = (ex2.hashMap (ex2.next (ex2.Hash "k20"))).getD "" :=
  ⟨get_eq_next_successor.1 ex2 "k20",
   (get_eq_next_successor.2 ex2 "k20" (by decide) (by decide)).1⟩

/-- Claim C5: Range(host) returns (0, 0) on the empty ring, and otherwise the
pair (from, to) with to = Hash(host) and from = prev(to - 1) + 1. -/
theorem range_spec (m : Consistent) (host : String) :
    (m.IsEmpty = true → m.Range host = (0, 0)) ∧
    (m.IsEmpty = false → m.Range host = (m.prev (m.Hash host - 1) + 1, m.Hash host)) := by
  constructor
  · intro hie
    unfold Consistent.Range
    rw [hie]
    rfl
  · intro hie
    unfold Consistent.Range
    rw [hie]
    rfl

/-- Witness for C5 on the concrete two-member ring and on the empty ring. -/
theorem range_spec_witness :
    ex2.Range "A" = (ex2.prev (ex2.Hash "A" - 1) + 1, ex2.Hash "A") ∧
    (New exHash).Range "A" = (0, 0) :=
  ⟨(range_spec ex2 "A").2 (by decide), (range_spec (New exHash) "A").1 (by decide)⟩

/-- Claim C6: after every finite sequence of Add and Remove calls starting
from the empty ring, the position sequence is strictly ascending (hence
duplicate-free) and its element set is exactly the key set of the
position-to-owner map. -/
theorem run_invariant (fn : String → Nat) (ops : List Op) :
    List.Sorted (· < ·) (run fn ops).keys ∧
    ∀ p : Int, p ∈ (run fn ops).keys ↔ ((run fn ops).hashMap p).isSome = true :=
  inv_foldl ops (New fn) (inv_new fn)

/-- Claim C7: immediately after Add(k), Has(k) is true and Get(k) returns the
owner recorded at next(Hash(k)); after a subsequent Remove(k), Has(k) is
false.  The hypothesis is the reachable-state invariant that the position
set matches the owner map (claim C6), needed so that the ring is seen as
non-empty after the Add. -/
theorem add_has_get_remove (m : Consistent) (k : String)
    (hmem : ∀ p : Int, p ∈ m.keys ↔ (m.hashMap p).isSome = true) :
    (m.Add k).2.Has k = true ∧
    (m.Add k).2.Get k =
      ((m.Add k).2.hashMap ((m.Add k).2.next ((m.Add k).2.Hash k))).getD "" ∧
    ((m.Add k).2.Remove k).Has k = false := by
  refine ⟨?_, ?_, ?_⟩
  · unfold Consistent.Has
    rw [Add_snd_hashMap_at m k, if_pos (show (m.Add k).2.Hash k = m.Hash k from rfl)]
    rfl
  · have hne : (m.Add k).2.keys ≠ [] := List.ne_nil_of_mem (hash_mem_add_keys m k hmem)
    exact Next_eq_of_nonempty (isEmpty_false_of_ne hne) k
  · unfold Consistent.Has
    rw [Remove_hashMap_at (m.Add k).2 k,
      if_pos (show ((m.Add k).2.Remove k).Hash k = (m.Add k).2.Hash k from rfl)]
    rfl

/-- Witness for C7, starting from the (reachable) empty ring. -/
theorem add_has_get_remove_witness :
    ((New exHash).Add "A").2.Has "A" = true ∧
    ((New exHash).Add "A").2.Get "A" =
      (((New exHash).Add "A").2.hashMap
        (((New exHash).Add "A").2.next (((New exHash).Add "A").2.Hash "A"))).getD "" ∧
    (((New exHash).Add "A").2.Remove "A").Has "A" = false :=
  add_has_get_remove (New exHash) "A" (fun p => by simp [New])

/-- Claim C8: for distinct keys with colliding hashes, Add(k1) then Add(k2)
leaves k2 as the owner at the shared position, the position occurs exactly
once in the index, and both Add calls return that same position; Add with
the same key twice is idempotent on the ring state.  The sortedness and
map-match hypotheses are the reachable-state invariant (claim C6). -/
theorem add_collision_overwrites (m : Consistent) (k1 k2 : String)
    (hh : m.Hash k1 = m.Hash k2)
    (hs : List.Sorted (· < ·) m.keys)
    (hmem : ∀ p : Int, p ∈ m.keys ↔ (m.hashMap p).isSome = true) :
    ((m.Add k1).2.Add k2).2.hashMap (m.Hash k1) = some k2 ∧
    List.count (m.Hash k1) ((m.Add k1).2.Add k2).2.keys = 1 ∧
    (m.Add k1).1 = ((m.Add k1).2.Add k2).1 ∧
    ∀ k : String, ((m.Add k).2.Add k).2 = (m.Add k).2 := by
  have hc2 : ((m.Add k1).2.hashMap ((m.Add k1).2.Hash k2)).isSome = true := by
    rw [Add_snd_hashMap_at m k1, if_pos (show (m.Add k1).2.Hash k2 = m.Hash k1 from hh.symm)]
    rfl
  have hkeys2 : ((m.Add k1).2.Add k2).2.keys = (m.Add k1).2.keys :=
    Add_snd_keys_present (m.Add k1).2 k2 hc2
  refine ⟨?_, ?_, ?_, ?_⟩
  · rw [Add_snd_hashMap_at (m.Add k1).2 k2,
      if_pos (show m.Hash k1 = (m.Add k1).2.Hash k2 from hh)]
  · rw [hkeys2]
    by_cases hc1 : (m.hashMap (m.Hash k1)).isSome = true
    · rw [Add_snd_keys_present m k1 hc1]
      exact List.count_eq_one_of_mem hs.nodup ((hmem _).mpr hc1)
    · rw [Add_snd_keys_absent m k1 hc1]
      have hperm := List.perm_insertionSort (· ≤ ·) (m.keys ++ [m.Hash k1])
      rw [hperm.count_eq, List.count_append]
      have hzero : List.count (m.Hash k1) m.keys = 0 :=
        List.count_eq_zero.mpr (fun hmm => hc1 ((hmem _).mp hmm))
      rw [hzero]
      simp
  · exact hh
  · intro k
    have hck : ((m.Add k).2.hashMap ((m.Add k).2.Hash k)).isSome = true := by
      rw [Add_snd_hashMap_at m k, if_pos (show (m.Add k).2.Hash k = m.Hash k from rfl)]
      rfl
    have hkeys : ((m.Add k).2.Add k).2.keys = (m.Add k).2.keys :=
      Add_snd_keys_present (m.Add k).2 k hck
    have hmap : ((m.Add k).2.Add k).2.hashMap = (m.Add k).2.hashMap := by
      funext p
      rw [Add_snd_hashMap_at (m.Add k).2 k p]
      by_cases hp : p = (m.Add k).2.Hash k
      · rw [if_pos hp, hp]
        rw [Add_snd_hashMap_at m k ((m.Add k).2.Hash k),
          if_pos (show (m.Add k).2.Hash k = m.Hash k from rfl)]
      · rw [if_neg hp]
    have hhf : ((m.Add k).2.Add k).2.hash = (m.Add k).2.hash := rfl
    have heta : ((m.Add k).2.Add k).2 =
        { hash := ((m.Add k).2.Add k).2.hash,
          keys := ((m.Add k).2.Add k).2.keys,
          hashMap := ((m.Add k).2.Add k).2.hashMap } := rfl
    rw [heta, hhf, hkeys, hmap]

/-- Witness for C8: "X" and "Y" are distinct keys that both hash to
position 5 under the toy hash function. -/
theorem add_collision_overwrites_witness :
    (((New exHash).Add "X").2.Add "Y").2.hashMap ((New exHash).Hash "X") = some "Y" ∧
    List.count ((New exHash).Hash "X") (((New exHash).Add "X").2.Add "Y").2.keys = 1 ∧
    ("X" : String) ≠ "Y" ∧ (New exHash).Hash "X" = (New exHash).Hash "Y" :=
  ⟨(add_collision_overwrites (New exHash) "X" "Y" (by decide) (by decide)
      (fun p => by simp [New])).1,
   (add_collision_overwrites (New exHash) "X" "Y" (by decide) (by decide)
      (fun p => by simp [New])).2.1,
   by decide, by decide⟩

/-- Claim C9: on an empty ring every lookup returns its zero/empty sentinel
without failing: Get and Next return "", NextN and PrevN return the nil
sequence (a normal return, not a panic), and Range returns (0, 0). -/
theorem empty_ring_sentinels (m : Consistent) (key : String) (count : Int)
    (he : m.IsEmpty = true) :
    m.Get key = "" ∧ m.Next key = "" ∧ m.NextN key count = some [] ∧
    m.PrevN key count = some [] ∧ m.Range key = (0, 0) := by
  refine ⟨?_, ?_, ?_, ?_, ?_⟩
  · unfold Consistent.Get Consistent.Next
    rw [he]
    rfl
  · unfold Consistent.Next
    rw [he]
    rfl
  · unfold Consistent.NextN
    rw [he]
    rfl
  · unfold Consistent.PrevN
    rw [he]
    rfl
  · unfold Consistent.Range
    rw [he]
    rfl

/-- Witness for C9 on the freshly constructed empty ring. -/
theorem empty_ring_sentinels_witness :
    (New exHash).Get "A" = "" ∧ (New exHash).Next "A" = "" ∧
    (New exHash).NextN "A" 3 = some [] ∧ (New exHash).PrevN "A" 3 = some [] ∧
    (New exHash).Range "A" = (0, 0) :=
  empty_ring_sentinels (New exHash) "A" 3 (by decide)

/-- Claim C10: Add(key) and Remove(key) are frame-preserving outside the
single position Hash(key): at every other position the owner map entry and
the membership in the position index are unchanged. -/
theorem add_remove_frame (m : Consistent) (key : String) (p : Int)
    (hp : p ≠ m.Hash key) :
    (m.Add key).2.hashMap p = m.hashMap p ∧
    (p ∈ (m.Add key).2.keys ↔ p ∈ m.keys) ∧
    (m.Remove key).hashMap p = m.hashMap p ∧
    (p ∈ (m.Remove key).keys ↔ p ∈ m.keys) := by
  refine ⟨?_, ?_, ?_, ?_⟩
  · rw [Add_snd_hashMap_at m key p, if_neg hp]
  · by_cases hc : (m.hashMap (m.Hash key)).isSome = true
    · rw [Add_snd_keys_present m key hc]
    · rw [Add_snd_keys_absent m key hc, mem_insertionSort_le, List.mem_append,
        List.mem_singleton]
      constructor
      · rintro (hin | heq)
        · exact hin
        · exact absurd heq hp
      · exact Or.inl
  · rw [Remove_hashMap_at m key p, if_neg hp]
  · by_cases hc : m.keys.findIdx (fun x => decide (m.Hash key ≤ x)) < m.keys.length ∧
        m.keys.getD (m.keys.findIdx (fun x => decide (m.Hash key ≤ x))) 0 = m.Hash key
    · rw [Remove_keys_found m key hc, mem_insertionSort_le]
      obtain ⟨hil, hval⟩ := hc
      constructor
      · intro hin
        exact (splice_sublist _ _).subset hin
      · intro hin
        refine mem_splice_of_ne hil hin ?_
        rw [hval]
        exact hp
    · rw [Remove_keys_notfound m key hc, mem_insertionSort_le]

/-- Witness for C10: position 99 differs from Hash("A") = 10 and is untouched
by Add("A") and Remove("A") on the concrete ring. -/
theorem add_remove_frame_witness :
    (ex2.Add "A").2.hashMap 99 = ex2.hashMap 99 ∧
    ((99 : Int) ∈ (ex2.Add "A").2.keys ↔ (99 : Int) ∈ ex2.keys) ∧
    (ex2.Remove "A").hashMap 99 = ex2.hashMap 99 ∧
    ((99 : Int) ∈ (ex2.Remove "A").keys ↔ (99 : Int) ∈ ex2.keys) :=
  add_remove_frame ex2 "A" 99 (by decide)

end ConsistentHash
